import Mathlib

/-!
Verification of the resolver/merger core of `use_cli` (src/main.rs).

Modelling conventions:
* Rust `HashMap<String, String>` fields are embedded as association lists
  (`Smap`) with unique keys: `mapInsert` overwrites an existing binding in
  place and appends a new one, so an `Smap` carries exactly the key-value
  content of the `HashMap` it models.  `mapExtend` is `HashMap::extend`.
* The config store `HashMap<String, Environment>` is an association list with
  unique keys; `List.lookup` models `HashMap::get`.
* `get_use_environments` in the Rust source is recursive with no decreasing
  argument (it can genuinely diverge on cyclic `use` graphs), so the embedding
  is fuel-indexed: `none` means the computation is still running after `fuel`
  nested calls, `some (Except.error m)` models a Rust panic with message `m`,
  and `some (Except.ok l)` a normal return.
* `envs.get(name).unwrap()` panicking on `None` is modelled by the fixed Rust
  panic message `unwrapMsg`; `envs[0]` on an empty vector by `indexPanicMsg`.
-/

/-- Canonical association-list embedding of Rust `HashMap<String, String>`. -/
abbrev Smap := List (String × String)

/-- Insertion keeping keys unique: overwrites an existing binding in place,
appends a new one, mirroring the content effect of `HashMap::insert`. -/
def mapInsert (k v : String) : Smap → Smap
  | [] => [(k, v)]
  | (k', v') :: rest =>
    if k = k' then (k, v) :: rest
    else (k', v') :: mapInsert k v rest

/-- `HashMap::extend`: insert every binding of `m₂` into `m₁` (later bindings
overwrite earlier ones with the same key). -/
def mapExtend (m₁ : Smap) : Smap → Smap
  | [] => m₁
  | (k, v) :: rest => mapExtend (mapInsert k v m₁) rest

/-- The `Environment` struct of src/main.rs (field `use` is named `reuse` there
as well, via `serde(rename)`). -/
structure Environment where
  display : Option String
  defer : Option (List String)
  set : Option Smap
  append : Option Smap
  prepend : Option Smap
  path : Option (List String)
  reuse : Option (List String)
  go : Option String
deriving DecidableEq

/-- The config store: `HashMap<String, Environment>` as a keyed list. -/
abbrev Store := List (String × Environment)

/-- Rust's panic message for `Option::unwrap()` on `None`, raised by
`envs.get(env_name).unwrap()` when a `use` entry names a missing environment. -/
def unwrapMsg : String := "called `Option::unwrap()` on a `None` value"

/-- Rust's panic message for `envs[0]` on an empty vector in
`merge_environments`. -/
def indexPanicMsg : String := "index out of bounds: the len is 0 but the index is 0"

/-- The inner loop of `get_use_environments`: push each recursively resolved
record onto `acc` unless it is already present (`!use_envs.contains(reuse_env)`,
record equality). -/
def pushNew (acc : List Environment) : List Environment → List Environment
  | [] => acc
  | e :: rest => pushNew (if e ∈ acc then acc else acc ++ [e]) rest

/-- The `for env_name in reuse.iter()` loop of `get_use_environments`:
`g` is the recursive call, errors and running computations propagate. -/
def processReuse (g : String → Option (Except String (List Environment))) :
    List String → List Environment → Option (Except String (List Environment))
  | [], acc => some (Except.ok acc)
  | n :: rest, acc =>
    match g n with
    | none => none
    | some (Except.error e) => some (Except.error e)
    | some (Except.ok sub) => processReuse g rest (pushNew acc sub)

/-- Fuel-indexed embedding of `get_use_environments` (src/main.rs:166-189):
look the root up (panicking on a missing name), push it, recursively resolve
each `use` entry, append the not-yet-present records of each recursive result,
and reverse the whole list before returning. -/
def getUseEnvironments (fuel : Nat) (envName : String) (envs : Store) :
    Option (Except String (List Environment)) :=
  match fuel with
  | 0 => none
  | fuel + 1 =>
    match List.lookup envName envs with
    | none => some (Except.error unwrapMsg)
    | some env =>
      match processReuse (fun n => getUseEnvironments fuel n envs)
          (env.reuse.getD []) [env] with
      | none => none
      | some (Except.error e) => some (Except.error e)
      | some (Except.ok l) => some (Except.ok l.reverse)

/-- One iteration of the merge loop in `merge_environments` (src/main.rs:196-204):
`result_env` is the accumulator, `env` the next record. -/
def mergeStep (result env : Environment) : Environment :=
  { display := env.display.or result.display
    defer := some ((result.defer.getD []) ++ (env.defer.getD []))
    set := some (mapExtend (result.set.getD []) (env.set.getD []))
    append := some (mapExtend (result.append.getD []) (env.append.getD []))
    prepend := some (mapExtend (result.prepend.getD []) (env.prepend.getD []))
    path := some ((result.path.getD []) ++ (env.path.getD []))
    reuse := result.reuse
    go := env.go.or result.go }

/-- `merge_environments` (src/main.rs:192-207): seed with `envs[0]`
(`none` models the index panic on an empty vector), then fold the rest. -/
def merge_environments : List Environment → Option Environment
  | [] => none
  | e :: rest => some (rest.foldl mergeStep e)

/-- The resolution-then-merge pipeline of `main` (src/main.rs:137-138):
panics from either phase propagate; no merged environment is produced on
resolution failure. -/
def resolveAndMerge (fuel : Nat) (envName : String) (envs : Store) :
    Option (Except String Environment) :=
  match getUseEnvironments fuel envName envs with
  | none => none
  | some (Except.error e) => some (Except.error e)
  | some (Except.ok l) =>
    match merge_environments l with
    | none => some (Except.error indexPanicMsg)
    | some env => some (Except.ok env)

/-- Spec-side definition, transcribed from the specification's words (spec
section 4.2): discover names in depth-first preorder — root, then each
`reuses` target recursively, each contributing only names not already
present.  Fuel-indexed for the same reason as the code-side resolver. -/
def specVisit (fuel : Nat) (envs : Store) : String → List String → List String :=
  match fuel with
  | 0 => fun _ acc => acc
  | fuel + 1 => fun n acc =>
    if n ∈ acc then acc
    else
      match List.lookup n envs with
      | none => acc ++ [n]
      | some env =>
        (env.reuse.getD []).foldl (fun a m => specVisit fuel envs m a) (acc ++ [n])

/-- Spec-side definition: the apply sequence the specification prescribes —
the preorder discovery sequence reversed. -/
def specApplySeq (fuel : Nat) (envs : Store) (root : String) : List String :=
  (specVisit fuel envs root []).reverse

/-- Value of a key after merging a sequence of maps, as the spec states it:
the value from the latest record containing that key. -/
def lastLookup (f : Environment → Smap) (k : String) (l : List Environment) :
    Option String :=
  l.reverse.findSome? (fun x => List.lookup k (f x))

/-- Substring test on character lists (used to state that a panic message does
not mention a key). -/
def hasSub (needle : List Char) : List Char → Bool
  | [] => needle.isEmpty
  | c :: cs => List.isPrefixOf needle (c :: cs) || hasSub needle cs

/-- An environment record with every optional field absent. -/
def emptyEnv : Environment :=
  { display := none, defer := none, set := none, append := none,
    prepend := none, path := none, reuse := none, go := none }

/-- Unfolding equation for one recursion step of the resolver. -/
theorem getUse_succ (fuel : Nat) (n : String) (s : Store) :
    getUseEnvironments (fuel + 1) n s =
      match List.lookup n s with
      | none => some (Except.error unwrapMsg)
      | some env =>
        match processReuse (fun m => getUseEnvironments fuel m s)
            (env.reuse.getD []) [env] with
        | none => none
        | some (Except.error e) => some (Except.error e)
        | some (Except.ok l) => some (Except.ok l.reverse) := rfl

/-- `List.lookup` on a cons cell, phrased with a propositional `if`. -/
theorem lookup_cons_eq (k kh vh : String) (rest : Smap) :
    List.lookup k ((kh, vh) :: rest) = if k = kh then some vh else List.lookup k rest := by
  by_cases h : k = kh
  · subst h; simp
  · have hb : (k == kh) = false := beq_eq_false_iff_ne.mpr h
    simp [List.lookup_cons, hb, h]

/-- Looking a key up after an insertion. -/
theorem lookup_mapInsert (k k' v : String) (m : Smap) :
    List.lookup k (mapInsert k' v m) = if k = k' then some v else List.lookup k m := by
  induction m with
  | nil =>
    simp only [mapInsert]
    by_cases h : k = k' <;> simp [lookup_cons_eq, h]
  | cons p rest ih =>
    obtain ⟨kh, vh⟩ := p
    simp only [mapInsert]
    by_cases h1 : k' = kh
    · subst h1
      simp only [if_pos rfl]
      by_cases h : k = k' <;> simp [lookup_cons_eq, h]
    · simp only [if_neg h1]
      by_cases h3 : k = kh
      · subst h3
        have hkk : ¬ k = k' := fun hc => h1 hc.symm
        simp [lookup_cons_eq, hkk]
      · simp [lookup_cons_eq, h3, ih]

/-- Looking a key up after `HashMap::extend`: the extending map wins on the
keys it contains (its keys are unique, as in any `HashMap`). -/
theorem lookup_mapExtend (k : String) (m₁ m₂ : Smap)
    (h : (m₂.map Prod.fst).Nodup) :
    List.lookup k (mapExtend m₁ m₂) = (List.lookup k m₂).or (List.lookup k m₁) := by
  induction m₂ generalizing m₁ with
  | nil => simp [mapExtend]
  | cons p rest ih =>
    obtain ⟨kh, vh⟩ := p
    simp only [List.map_cons, List.nodup_cons] at h
    simp only [mapExtend]
    rw [ih _ h.2, lookup_mapInsert]
    by_cases hk : k = kh
    · subst hk
      have hnone : List.lookup k rest = none := by
        rw [List.lookup_eq_none_iff]
        intro p hp
        simp only [bne_iff_ne, ne_eq]
        intro he
        exact h.1 (he ▸ List.mem_map_of_mem Prod.fst hp)
      simp [lookup_cons_eq, hnone]
    · simp [lookup_cons_eq, hk]

/-- Looking a key up after folding `HashMap::extend` over a sequence of maps:
the latest map containing the key wins, with the seed map as fallback. -/
theorem lookup_foldlExtend (k : String) (ms : List Smap) (init : Smap)
    (h : ∀ m ∈ ms, (m.map Prod.fst).Nodup) :
    List.lookup k (ms.foldl mapExtend init)
      = (ms.reverse.findSome? (List.lookup k)).or (List.lookup k init) := by
  induction ms generalizing init with
  | nil => simp
  | cons m rest ih =>
    simp only [List.foldl_cons, List.reverse_cons, List.findSome?_append]
    rw [ih (mapExtend init m) (fun x hx => h x (List.mem_cons_of_mem _ hx))]
    rw [lookup_mapExtend k init m (h m (List.mem_cons_self _ _))]
    cases List.findSome? (List.lookup k) rest.reverse <;>
      cases hm : List.lookup k m <;> simp [List.findSome?_cons, hm, Option.or]

/-- The `set` field of the merge fold is the fold of `HashMap::extend` over
the records' `set` maps. -/
theorem foldl_mergeStep_set (es : List Environment) (e : Environment) :
    ((es.foldl mergeStep e).set).getD []
      = (es.map (fun x => x.set.getD [])).foldl mapExtend (e.set.getD []) := by
  induction es generalizing e with
  | nil => rfl
  | cons x rest ih =>
    simp only [List.foldl_cons, List.map_cons]
    rw [ih (mergeStep e x)]
    rfl

/-- The `append` field of the merge fold, likewise. -/
theorem foldl_mergeStep_append (es : List Environment) (e : Environment) :
    ((es.foldl mergeStep e).append).getD []
      = (es.map (fun x => x.append.getD [])).foldl mapExtend (e.append.getD []) := by
  induction es generalizing e with
  | nil => rfl
  | cons x rest ih =>
    simp only [List.foldl_cons, List.map_cons]
    rw [ih (mergeStep e x)]
    rfl

/-- The `prepend` field of the merge fold, likewise. -/
theorem foldl_mergeStep_prepend (es : List Environment) (e : Environment) :
    ((es.foldl mergeStep e).prepend).getD []
      = (es.map (fun x => x.prepend.getD [])).foldl mapExtend (e.prepend.getD []) := by
  induction es generalizing e with
  | nil => rfl
  | cons x rest ih =>
    simp only [List.foldl_cons, List.map_cons]
    rw [ih (mergeStep e x)]
    rfl

/-- The merge loop never touches the seed's `reuse` field. -/
theorem foldl_mergeStep_reuse (es : List Environment) (e : Environment) :
    (es.foldl mergeStep e).reuse = e.reuse := by
  induction es generalizing e with
  | nil => rfl
  | cons x rest ih => simp only [List.foldl_cons]; rw [ih (mergeStep e x)]; rfl

/-- When no later record carries a `display`, the seed's survives. -/
theorem foldl_mergeStep_display (es : List Environment) (e : Environment)
    (h : ∀ x ∈ es, x.display = none) :
    (es.foldl mergeStep e).display = e.display := by
  induction es generalizing e with
  | nil => rfl
  | cons x rest ih =>
    simp only [List.foldl_cons]
    rw [ih (mergeStep e x) (fun y hy => h y (List.mem_cons_of_mem _ hy))]
    have hx : x.display = none := h x (List.mem_cons_self _ _)
    simp [mergeStep, hx]

/-- When no later record carries a `go`, the seed's survives. -/
theorem foldl_mergeStep_go (es : List Environment) (e : Environment)
    (h : ∀ x ∈ es, x.go = none) :
    (es.foldl mergeStep e).go = e.go := by
  induction es generalizing e with
  | nil => rfl
  | cons x rest ih =>
    simp only [List.foldl_cons]
    rw [ih (mergeStep e x) (fun y hy => h y (List.mem_cons_of_mem _ hy))]
    have hx : x.go = none := h x (List.mem_cons_self _ _)
    simp [mergeStep, hx]

/-- Association-list lookup only depends on the key-value content when keys
are unique: permuting the entries (as iterating a `HashMap` in another order
would) leaves every lookup unchanged. -/
theorem perm_lookup (k : String) :
    ∀ {l l' : Smap}, l.Perm l' → (l.map Prod.fst).Nodup →
      List.lookup k l = List.lookup k l' := by
  intro l l' p
  induction p with
  | nil => intro _; rfl
  | cons x p ih =>
    intro h
    obtain ⟨kh, vh⟩ := x
    simp only [List.map_cons, List.nodup_cons] at h
    rw [lookup_cons_eq, lookup_cons_eq]
    by_cases hk : k = kh
    · simp [hk]
    · simp only [if_neg hk]
      exact ih h.2
  | swap x y l =>
    intro h
    obtain ⟨k1, v1⟩ := x
    obtain ⟨k2, v2⟩ := y
    simp only [List.map_cons, List.nodup_cons, List.mem_cons] at h
    have h12 : k2 ≠ k1 := fun he => h.1 (Or.inl he)
    have h21 : k1 ≠ k2 := fun he => h12 he.symm
    rw [lookup_cons_eq, lookup_cons_eq, lookup_cons_eq, lookup_cons_eq]
    by_cases h1 : k = k1 <;> by_cases h2 : k = k2
    · exact absurd (h1.symm.trans h2) h21
    · simp [h1, h2, h12, h21]
    · simp [h1, h2, h12, h21]
    · simp [h1, h2, h12, h21]
  | trans p1 p2 ih1 ih2 =>
    intro h
    rw [ih1 h, ih2 (((p1.map Prod.fst).nodup_iff).mp h)]

/-- The `pushNew` loop preserves freedom from duplicates. -/
theorem pushNew_nodup (sub acc : List Environment) (h : acc.Nodup) :
    (pushNew acc sub).Nodup := by
  induction sub generalizing acc with
  | nil => exact h
  | cons e rest ih =>
    simp only [pushNew]
    by_cases he : e ∈ acc
    · simp only [if_pos he]
      exact ih acc h
    · simp only [if_neg he]
      refine ih (acc ++ [e]) ?_
      simp [List.nodup_append, h, he]

/-- A successful `processReuse` run starting from a duplicate-free accumulator
returns a duplicate-free list. -/
theorem processReuse_nodup (g : String → Option (Except String (List Environment)))
    (l : List String) (acc res : List Environment)
    (hacc : acc.Nodup) (h : processReuse g l acc = some (Except.ok res)) :
    res.Nodup := by
  induction l generalizing acc with
  | nil =>
    simp only [processReuse, Option.some.injEq, Except.ok.injEq] at h
    exact h ▸ hacc
  | cons n rest ih =>
    simp only [processReuse] at h
    cases hg : g n with
    | none => rw [hg] at h; cases h
    | some r =>
      cases r with
      | error e => rw [hg] at h; simp at h
      | ok sub =>
        rw [hg] at h
        exact ih (pushNew acc sub) (pushNew_nodup sub acc hacc) h

/-- Every list the resolver returns is free of duplicate records: the
`use_envs.contains` guard keeps each record at most once, whatever the shape
of the reuse graph. -/
theorem getUse_nodup (fuel : Nat) (n : String) (s : Store) (l : List Environment)
    (h : getUseEnvironments fuel n s = some (Except.ok l)) : l.Nodup := by
  match fuel with
  | 0 => simp [getUseEnvironments] at h
  | fuel + 1 =>
    rw [getUse_succ] at h
    cases hl : List.lookup n s with
    | none => rw [hl] at h; simp at h
    | some env =>
      rw [hl] at h
      simp only at h
      cases hp : processReuse (fun m => getUseEnvironments fuel m s)
          (env.reuse.getD []) [env] with
      | none => rw [hp] at h; cases h
      | some r =>
        cases r with
        | error e => rw [hp] at h; simp at h
        | ok l' =>
          rw [hp] at h
          simp only [Option.some.injEq, Except.ok.injEq] at h
          rw [← h]
          simpa using processReuse_nodup _ _ [env] l'
            (List.nodup_singleton env) hp

/-- Resolving a leaf environment (no `use` list) yields just its record. -/
theorem getUse_leaf (fuel : Nat) (nB : String) (s : Store) (b : Environment)
    (hB : List.lookup nB s = some b) (hbr : b.reuse = none) :
    getUseEnvironments (fuel + 1) nB s = some (Except.ok [b]) := by
  rw [getUse_succ, hB]
  simp [processReuse, hbr]

/-- Resolving a root that reuses exactly one leaf yields the leaf first, the
root last. -/
theorem getUse_single_child (fuel : Nat) (nA nB : String) (s : Store)
    (a b : Environment)
    (hA : List.lookup nA s = some a) (har : a.reuse = some [nB])
    (hB : List.lookup nB s = some b) (hbr : b.reuse = none) (hab : b ≠ a) :
    getUseEnvironments (fuel + 2) nA s = some (Except.ok [b, a]) := by
  rw [getUse_succ, hA]
  have hb := getUse_leaf fuel nB s b hB hbr
  simp [processReuse, har, hb, pushNew, hab]

/-- Resolving a root whose two `use` entries both name the same leaf record
keeps the record once. -/
theorem getUse_twin_children (fuel : Nat) (nR n1 n2 : String) (s : Store)
    (r e : Environment)
    (hR : List.lookup nR s = some r) (hrr : r.reuse = some [n1, n2])
    (h1 : List.lookup n1 s = some e) (h2 : List.lookup n2 s = some e)
    (her : e.reuse = none) (hre : e ≠ r) :
    getUseEnvironments (fuel + 2) nR s = some (Except.ok [e, r]) := by
  rw [getUse_succ, hR]
  have he1 := getUse_leaf fuel n1 s e h1 her
  have he2 := getUse_leaf fuel n2 s e h2 her
  simp [processReuse, hrr, he1, he2, pushNew, hre]

/-- A root whose `use` list starts with a name absent from the store panics
with the fixed unwrap message. -/
theorem getUse_missing_first (fuel : Nat) (nR ghost : String) (rest : List String)
    (s : Store) (r : Environment)
    (hR : List.lookup nR s = some r) (hrr : r.reuse = some (ghost :: rest))
    (hg : List.lookup ghost s = none) :
    getUseEnvironments (fuel + 2) nR s = some (Except.error unwrapMsg) := by
  rw [getUse_succ, hR]
  have hge : getUseEnvironments (fuel + 1) ghost s = some (Except.error unwrapMsg) := by
    rw [getUse_succ, hg]
  simp [processReuse, hrr, hge]

/-- The pipeline merges a successfully resolved non-empty sequence. -/
theorem resolveAndMerge_ok (fuel : Nat) (n : String) (s : Store)
    (e : Environment) (rest : List Environment)
    (h : getUseEnvironments fuel n s = some (Except.ok (e :: rest))) :
    resolveAndMerge fuel n s = some (Except.ok (rest.foldl mergeStep e)) := by
  simp [resolveAndMerge, h, merge_environments]

/-- A resolution panic propagates through the pipeline: no merge happens. -/
theorem resolveAndMerge_error (fuel : Nat) (n : String) (s : Store) (msg : String)
    (h : getUseEnvironments fuel n s = some (Except.error msg)) :
    resolveAndMerge fuel n s = some (Except.error msg) := by
  simp [resolveAndMerge, h]

/-- Folding `HashMap::extend` over the per-record maps realises the spec's
last-write-wins-per-key description. -/
theorem lookup_merged_maps (f : Environment → Smap) (k : String) (e : Environment)
    (es : List Environment) (h : ∀ x ∈ e :: es, ((f x).map Prod.fst).Nodup) :
    List.lookup k ((es.map f).foldl mapExtend (f e)) = lastLookup f k (e :: es) := by
  rw [lookup_foldlExtend k (es.map f) (f e)
    (fun m hm => by
      obtain ⟨x, hx, rfl⟩ := List.mem_map.mp hm
      exact h x (List.mem_cons_of_mem _ hx))]
  unfold lastLookup
  rw [List.reverse_cons, List.findSome?_append, ← List.map_reverse,
    List.findSome?_map]
  cases hv : List.lookup k (f e) <;>
    simp [List.findSome?_cons, hv, Function.comp_def]

/-! Concrete stores used to exercise the claims. -/

/-- Chain store: a uses b, b uses c, c is a leaf. -/
def chainA : Environment := ⟨some "A", none, none, none, none, none, some ["b"], none⟩

/-- Middle element of the chain. -/
def chainB : Environment := ⟨some "B", none, none, none, none, none, some ["c"], none⟩

/-- Leaf of the chain. -/
def chainC : Environment := ⟨some "C", none, none, none, none, none, none, none⟩

/-- The three-element chain store. -/
def chainStore : Store := [("a", chainA), ("b", chainB), ("c", chainC)]

/-- Diamond root: r uses b and c. -/
def dR : Environment := ⟨some "R", none, none, none, none, none, some ["b", "c"], none⟩

/-- Left arm of the diamond, uses d. -/
def dB : Environment := ⟨some "B", none, none, none, none, none, some ["d"], none⟩

/-- Right arm of the diamond, uses d. -/
def dC : Environment := ⟨some "C", none, none, none, none, none, some ["d"], none⟩

/-- Shared base of the diamond. -/
def dD : Environment := ⟨some "D", none, none, none, none, none, none, none⟩

/-- The diamond store. -/
def diamondStore : Store := [("r", dR), ("b", dB), ("c", dC), ("d", dD)]

/-- A self-referential environment: a uses a. -/
def cycEnv : Environment := ⟨some "A", none, none, none, none, none, some ["a"], none⟩

/-- Store with the direct cycle. -/
def cycStore : Store := [("a", cycEnv)]

/-- A root whose `use` list names an absent environment. -/
def ghostRoot : Environment := ⟨none, none, none, none, none, none, some ["ghost"], none⟩

/-- Store for the missing-reference scenario. -/
def ghostStore : Store := [("r", ghostRoot)]

/-- Witness root for the precedence law: sets X and uses b. -/
def w4A : Environment := ⟨none, none, some [("X", "a-val")], none, none, none, some ["b"], none⟩

/-- Witness base for the precedence law: also sets X. -/
def w4B : Environment := ⟨none, none, some [("X", "b-val")], none, none, none, none, none⟩

/-- Store for the precedence-law witness. -/
def w4Store : Store := [("a", w4A), ("b", w4B)]

/-- Witness root for the append-union law. -/
def w6A : Environment := ⟨none, some ["d2"], none, none, none, some ["p2"], some ["b"], none⟩

/-- Witness base for the append-union law. -/
def w6B : Environment := ⟨none, some ["d1"], none, none, none, some ["p1"], none, none⟩

/-- Store for the append-union witness. -/
def w6Store : Store := [("a", w6A), ("b", w6B)]

/-- First record of the mapping-merge witness. -/
def e7a : Environment := ⟨none, none, some [("X", "1")], some [("P", "pa")], none, none, none, none⟩

/-- Second record of the mapping-merge witness. -/
def e7b : Environment := ⟨none, none, some [("X", "2"), ("Y", "3")], none, some [("Q", "qb")], none, none, none⟩

/-- Merged result of the mapping-merge witness. -/
def res7 : Environment := ⟨none, some [], some [("X", "2"), ("Y", "3")], some [("P", "pa")], some [("Q", "qb")], some [], none, none⟩

/-- Seed record of the seeding witness. -/
def e8a : Environment := ⟨some "seed", none, none, none, none, none, some ["x"], some "gdir"⟩

/-- Merged result of the seeding witness. -/
def res8 : Environment := ⟨some "seed", some [], some [], some [], some [], some [], some ["x"], some "gdir"⟩

/-- What merging two all-absent records yields: every collection and mapping
field materialises as present-but-empty. -/
def mergedEmptyPair : Environment := ⟨none, some [], some [], some [], some [], some [], none, none⟩

/-- Root of the duplicate-record witness, using two names. -/
def wR : Environment := ⟨none, none, none, none, none, none, some ["a1", "a2"], none⟩

/-- The record stored under both names in the duplicate-record witness. -/
def wE : Environment := ⟨some "E", none, none, none, none, none, none, none⟩

/-- Store mapping two distinct names to the identical record. -/
def w10Store : Store := [("r", wR), ("a1", wE), ("a2", wE)]

/-- C1: the claim states that the resolver's output equals the depth-first
preorder discovery sequence reversed, so that every environment's transitive
dependencies are applied before their dependents.  The code refutes this on
the three-element chain a→b→c: it returns the apply sequence [B, C, A], while
the reversed preorder discovery sequence is [C, B, A] — so C, the dependency
of B, is applied after B and overrides it.  The cause is that
`get_use_environments` reverses at every recursion level instead of once at
the end, and the claim holds only for reuse graphs of depth at most one. -/
theorem c1_apply_order_not_reversed_preorder :
    getUseEnvironments 10 "a" chainStore = some (Except.ok [chainB, chainC, chainA])
    ∧ specApplySeq 10 chainStore "a" = ["c", "b", "a"]
    ∧ (specApplySeq 10 chainStore "a").map (fun n => List.lookup n chainStore)
        = [some chainC, some chainB, some chainA]
    ∧ ([chainB, chainC, chainA] : List Environment) ≠ [chainC, chainB, chainA] := by
  exact ⟨by rfl, by rfl, by rfl, by decide⟩

/-- C2: the claim states that resolving a root whose `reuses` reach the root
itself terminates with the root appearing once.  The code refutes this: the
recursion carries no visited set (membership is only tested after a recursive
call returns), so on the store where a uses a the computation is still
running after every finite number of nested calls — it never terminates. -/
theorem c2_cyclic_reuse_diverges (fuel : Nat) :
    getUseEnvironments fuel "a" cycStore = none := by
  induction fuel with
  | zero => rfl
  | succ n ih =>
    have hl : List.lookup "a" cycStore = some cycEnv := rfl
    rw [getUse_succ, hl]
    simp [processReuse, cycEnv, ih]

/-- C3 counterexample: resolving a root whose `use` list names the absent
environment "ghost" does fail before any merge, but with the fixed
`Option::unwrap` panic message, which does not mention "ghost" — the claimed
`UnresolvedReferenceError` naming the missing key does not exist in the
code. -/
theorem c3_counterexample_panic_lacks_name :
    getUseEnvironments 2 "r" ghostStore = some (Except.error unwrapMsg)
    ∧ resolveAndMerge 2 "r" ghostStore = some (Except.error unwrapMsg)
    ∧ hasSub "ghost".data unwrapMsg.data = false := by
  exact ⟨by rfl, by rfl, by rfl⟩

/-- C3 amended: for every store and root whose `use` list starts with a name
absent from the store, resolution fails (with the generic unwrap panic, which
does not name the missing key) and no partial merged environment is
produced. -/
theorem c3_missing_reference_fails_unmerged (fuel : Nat) (nR ghost : String)
    (rest : List String) (s : Store) (r : Environment)
    (hR : List.lookup nR s = some r) (hrr : r.reuse = some (ghost :: rest))
    (hg : List.lookup ghost s = none) :
    getUseEnvironments (fuel + 2) nR s = some (Except.error unwrapMsg)
    ∧ resolveAndMerge (fuel + 2) nR s = some (Except.error unwrapMsg) := by
  have h := getUse_missing_first fuel nR ghost rest s r hR hrr hg
  exact ⟨h, resolveAndMerge_error _ _ _ _ h⟩

/-- C3 witness: the amended statement at the concrete ghost store. -/
theorem c3_missing_reference_fails_unmerged_witness :
    getUseEnvironments 2 "r" ghostStore = some (Except.error unwrapMsg)
    ∧ resolveAndMerge 2 "r" ghostStore = some (Except.error unwrapMsg) :=
  c3_missing_reference_fails_unmerged 0 "r" "ghost" [] ghostStore ghostRoot
    rfl rfl rfl

/-- C4: for every store in which A's `use` list is exactly [B], B is a leaf,
and both records set the variable X, the merged result of resolving A carries
A's value for X (the root record is merged last and wins per key). -/
theorem c4_root_value_wins_over_reused (fuel : Nat) (nA nB X vA vB : String)
    (s : Store) (a b : Environment) (ma mb : Smap)
    (hA : List.lookup nA s = some a) (hB : List.lookup nB s = some b)
    (har : a.reuse = some [nB]) (hbr : b.reuse = none)
    (has : a.set = some ma) (hbs : b.set = some mb)
    (hnd : (ma.map Prod.fst).Nodup)
    (hXa : List.lookup X ma = some vA) (hXb : List.lookup X mb = some vB) :
    ∃ m, resolveAndMerge (fuel + 2) nA s = some (Except.ok m)
      ∧ List.lookup X (m.set.getD []) = some vA := by
  have hab : b ≠ a := by
    intro he
    rw [he, har] at hbr
    cases hbr
  have hseq := getUse_single_child fuel nA nB s a b hA har hB hbr hab
  refine ⟨mergeStep b a, resolveAndMerge_ok _ _ _ _ _ hseq, ?_⟩
  have hms : (mergeStep b a).set.getD [] = mapExtend mb ma := by
    simp [mergeStep, has, hbs]
  rw [hms, lookup_mapExtend X mb ma hnd, hXa]
  rfl

/-- C4 witness: the precedence law at the concrete two-element store. -/
theorem c4_root_value_wins_over_reused_witness :
    ∃ m, resolveAndMerge 2 "a" w4Store = some (Except.ok m)
      ∧ List.lookup "X" (m.set.getD []) = some "a-val" :=
  c4_root_value_wins_over_reused 0 "a" "b" "X" "a-val" "b-val" w4Store w4A w4B
    [("X", "a-val")] [("X", "b-val")] rfl rfl rfl rfl rfl rfl (by decide) rfl rfl

/-- C5: the claim states that each environment appears at most once in the
apply sequence (which the code does satisfy: D appears exactly once in the
diamond) and that the shared base D is applied before B and C.  The code
refutes the second half: on the diamond r→[b,c], b→[d], c→[d] the apply
sequence is [C, B, D, R], so D is applied after both B and C and overrides
them instead of being overridable by them. -/
theorem c5_diamond_shared_base_applied_last :
    getUseEnvironments 10 "r" diamondStore = some (Except.ok [dC, dB, dD, dR])
    ∧ ([dC, dB, dD, dR].count dD) = 1
    ∧ ¬ ([dC, dB, dD, dR].indexOf dD < [dC, dB, dD, dR].indexOf dB
         ∧ [dC, dB, dD, dR].indexOf dD < [dC, dB, dD, dR].indexOf dC) := by
  exact ⟨by rfl, by decide, by decide⟩

/-- C6: for every store in which A's `use` list is exactly [B] and B is a
leaf, with B.path = [p1], A.path = [p2], B.defer = [d1], A.defer = [d2], the
merged collection fields are the concatenations [p1, p2] and [d1, d2] — base
before specific, order preserved, and no deduplication (p1 = p2 is allowed). -/
theorem c6_collection_fields_concatenate (fuel : Nat) (nA nB p1 p2 d1 d2 : String)
    (s : Store) (a b : Environment)
    (hA : List.lookup nA s = some a) (hB : List.lookup nB s = some b)
    (har : a.reuse = some [nB]) (hbr : b.reuse = none)
    (hap : a.path = some [p2]) (hbp : b.path = some [p1])
    (had : a.defer = some [d2]) (hbd : b.defer = some [d1]) :
    ∃ m, resolveAndMerge (fuel + 2) nA s = some (Except.ok m)
      ∧ m.path = some [p1, p2] ∧ m.defer = some [d1, d2] := by
  have hab : b ≠ a := by
    intro he
    rw [he, har] at hbr
    cases hbr
  have hseq := getUse_single_child fuel nA nB s a b hA har hB hbr hab
  refine ⟨mergeStep b a, resolveAndMerge_ok _ _ _ _ _ hseq, ?_, ?_⟩
  · simp [mergeStep, hap, hbp]
  · simp [mergeStep, had, hbd]

/-- C6 witness: the append-union law at the concrete two-element store. -/
theorem c6_collection_fields_concatenate_witness :
    ∃ m, resolveAndMerge 2 "a" w6Store = some (Except.ok m)
      ∧ m.path = some ["p1", "p2"] ∧ m.defer = some ["d1", "d2"] :=
  c6_collection_fields_concatenate 0 "a" "b" "p1" "p2" "d1" "d2" w6Store w6A w6B
    rfl rfl rfl rfl rfl rfl rfl rfl

/-- C7: for every non-empty record sequence, merging the mapping fields
(`set`, `append`, `prepend`) is a key-wise union in which, for every key, the
value of the latest record containing that key wins, while keys absent from
later records keep the earlier value — stated via lookups, with each record's
maps carrying unique keys as a `HashMap` does. -/
theorem c7_mapping_fields_last_write_wins (e : Environment) (es : List Environment)
    (res : Environment) (k : String)
    (hm : merge_environments (e :: es) = some res)
    (hset : ∀ x ∈ e :: es, ((x.set.getD []).map Prod.fst).Nodup)
    (happ : ∀ x ∈ e :: es, ((x.append.getD []).map Prod.fst).Nodup)
    (hpre : ∀ x ∈ e :: es, ((x.prepend.getD []).map Prod.fst).Nodup) :
    List.lookup k (res.set.getD []) = lastLookup (fun x => x.set.getD []) k (e :: es)
    ∧ List.lookup k (res.append.getD [])
        = lastLookup (fun x => x.append.getD []) k (e :: es)
    ∧ List.lookup k (res.prepend.getD [])
        = lastLookup (fun x => x.prepend.getD []) k (e :: es) := by
  simp only [merge_environments, Option.some.injEq] at hm
  subst hm
  refine ⟨?_, ?_, ?_⟩
  · rw [foldl_mergeStep_set, lookup_merged_maps _ _ _ _ hset]
  · rw [foldl_mergeStep_append, lookup_merged_maps _ _ _ _ happ]
  · rw [foldl_mergeStep_prepend, lookup_merged_maps _ _ _ _ hpre]

/-- C7 witness: last-write-wins at a concrete two-record sequence. -/
theorem c7_mapping_fields_last_write_wins_witness :
    List.lookup "X" (res7.set.getD [])
      = lastLookup (fun x => x.set.getD []) "X" [e7a, e7b]
    ∧ List.lookup "X" (res7.append.getD [])
        = lastLookup (fun x => x.append.getD []) "X" [e7a, e7b]
    ∧ List.lookup "X" (res7.prepend.getD [])
        = lastLookup (fun x => x.prepend.getD []) "X" [e7a, e7b] :=
  c7_mapping_fields_last_write_wins e7a [e7b] res7 "X" (by rfl)
    (by decide) (by decide) (by decide)

/-- C8 counterexample: the claim states that any field of the first record not
overridden or extended by later records appears unchanged in the output.
Merging two all-absent records refutes the "unchanged" part: the second
record extends nothing, yet the first record's absent `set` (and every other
collection/mapping field) comes out as present-but-empty, because the merge
loop materialises each such field with `get_or_insert_with`. -/
theorem c8_counterexample_absent_field_materializes :
    merge_environments [emptyEnv, emptyEnv] = some mergedEmptyPair
    ∧ mergedEmptyPair.set ≠ emptyEnv.set
    ∧ emptyEnv.set = none := by
  exact ⟨by rfl, by decide, rfl⟩

/-- C8 amended: merging any non-empty sequence succeeds (the index panic is
possible only on the empty sequence, which resolution never produces), a
single record merges to itself unchanged, and the first record seeds the
result: its `reuse` field always survives, and its scalar fields survive
whenever no later record carries them; absent collection/mapping fields,
however, are materialised as present-but-empty once a later record exists. -/
theorem c8_merge_total_and_seeded (e : Environment) (es : List Environment) :
    (merge_environments (e :: es)).isSome = true
    ∧ merge_environments [e] = some e
    ∧ ∀ res, merge_environments (e :: es) = some res →
        res.reuse = e.reuse
        ∧ ((∀ x ∈ es, x.display = none) → res.display = e.display)
        ∧ ((∀ x ∈ es, x.go = none) → res.go = e.go) := by
  refine ⟨rfl, rfl, ?_⟩
  intro res hres
  simp only [merge_environments, Option.some.injEq] at hres
  subst hres
  exact ⟨foldl_mergeStep_reuse es e,
    fun h => foldl_mergeStep_display es e h,
    fun h => foldl_mergeStep_go es e h⟩

/-- C8 witness: the amended statement exercised on a concrete pair. -/
theorem c8_merge_total_and_seeded_witness :
    merge_environments [e8a, emptyEnv] = some res8
    ∧ res8.reuse = e8a.reuse ∧ res8.display = e8a.display ∧ res8.go = e8a.go := by
  have h := (c8_merge_total_and_seeded e8a [emptyEnv]).2.2 res8 (by rfl)
  refine ⟨by rfl, h.1, h.2.1 ?_, h.2.2 ?_⟩
  · intro x hx
    rw [List.mem_singleton] at hx
    subst hx
    rfl
  · intro x hx
    rw [List.mem_singleton] at hx
    subst hx
    rfl

/-- C9: resolution and merging are deterministic.  In the embedding both are
pure functions, so two runs on the same inputs coincide definitionally; the
only run-to-run variation in the real program is the iteration order of the
underlying hash maps, and the second conjunct shows the merge step is
insensitive to it: extending by any permutation of a map's bindings leaves
every lookup of the result unchanged. -/
theorem c9_resolution_and_merge_deterministic :
    (∀ (fuel : Nat) (n : String) (s : Store),
      getUseEnvironments fuel n s = getUseEnvironments fuel n s
      ∧ resolveAndMerge fuel n s = resolveAndMerge fuel n s)
    ∧ ∀ (m₁ m₂ m₂' : Smap) (k : String), m₂.Perm m₂' → (m₂.map Prod.fst).Nodup →
        List.lookup k (mapExtend m₁ m₂) = List.lookup k (mapExtend m₁ m₂') := by
  refine ⟨fun _ _ _ => ⟨rfl, rfl⟩, ?_⟩
  intro m₁ m₂ m₂' k hp hnd
  have hnd' : (m₂'.map Prod.fst).Nodup := ((hp.map Prod.fst).nodup_iff).mp hnd
  rw [lookup_mapExtend k m₁ m₂ hnd, lookup_mapExtend k m₁ m₂' hnd',
    perm_lookup k hp hnd]

/-- C9 witness: extending by two orderings of the same two bindings gives the
same lookup. -/
theorem c9_resolution_and_merge_deterministic_witness :
    List.lookup "A" (mapExtend [] [("A", "1"), ("B", "2")])
      = List.lookup "A" (mapExtend [] [("B", "2"), ("A", "1")]) :=
  c9_resolution_and_merge_deterministic.2 [] [("A", "1"), ("B", "2")]
    [("B", "2"), ("A", "1")] "A" (List.Perm.swap ("B", "2") ("A", "1") [])
    (by decide)

/-- C10: de-duplication compares whole records (derived `PartialEq`), not
names: when a root's `use` list names two distinct entries that map to the
identical record and that record is a leaf, the resolved apply sequence
contains the record exactly once — from the name reached first — and the
later-reached name contributes nothing. -/
theorem c10_dedup_by_record_equality (fuel : Nat) (nR n1 n2 : String) (s : Store)
    (r e : Environment)
    (hR : List.lookup nR s = some r) (hrr : r.reuse = some [n1, n2])
    (h12 : n1 ≠ n2)
    (h1 : List.lookup n1 s = some e) (h2 : List.lookup n2 s = some e)
    (her : e.reuse = none) :
    getUseEnvironments (fuel + 2) nR s = some (Except.ok [e, r])
    ∧ ([e, r].count e) = 1 := by
  have hre : e ≠ r := by
    intro he
    rw [he, hrr] at her
    cases her
  refine ⟨getUse_twin_children fuel nR n1 n2 s r e hR hrr h1 h2 her hre, ?_⟩
  simp [List.count_cons, hre]

/-- C10 witness: the duplicate-record store with names a1 and a2 both mapping
to the same record. -/
theorem c10_dedup_by_record_equality_witness :
    getUseEnvironments 2 "r" w10Store = some (Except.ok [wE, wR])
    ∧ ([wE, wR].count wE) = 1 :=
  c10_dedup_by_record_equality 0 "r" "a1" "a2" w10Store wR wE rfl rfl
    (by decide) rfl rfl rfl
